import Mathlib

/-!
Verification of the mcufont encoder front end (src/encoder/main.cc) and the
compression-pipeline core it drives.  Pure parts of main.cc are translated
directly; the core data model, encoder, size estimator and optimizer live in
headers that are not part of this tree, so they are modelled from the
specification (each such definition says so in its doc comment).

Conventions: C++ `int` becomes `Int`; byte values and pixel values become
`Nat`; `std::vector` and `std::string` become `List`; fallible operations
return `Option`.
-/

set_option maxRecDepth 10000

namespace Mcufont

/-- Modelled from the spec (datafile.hh is not in src): the per-font metrics
carried by a data file — max bounding box, baseline position, line height,
family name and the monochrome flag. -/
structure FontInfo where
  name : String
  max_width : Int
  max_height : Int
  baseline_x : Int
  baseline_y : Int
  line_height : Int
  flags : Int
deriving DecidableEq

/-- Modelled from the spec: the tag distinguishing run-length dictionary
entries from reference dictionary entries. -/
inductive DictKind where
  | rle
  | ref
deriving DecidableEq

/-- Modelled from the spec (datafile.hh is not in src): one dictionary entry,
a short byte string tagged RLE or REF, with its reference count. -/
structure DictEntry where
  kind : DictKind
  ref_count : Int
  bytes : List Nat
deriving DecidableEq

/-- Modelled from the spec (datafile.hh is not in src): one glyph entry —
the flattened 4-bit pixel buffer in reading order, the dimensions and
advance, and the ordered list of character codes mapping to this bitmap. -/
structure Glyph where
  data : List Nat
  width : Int
  height : Int
  advance : Int
  chars : List Int
deriving DecidableEq

/-- Modelled from the spec (datafile.hh is not in src): a data file is the
tuple of dictionary, glyph list and font info.  The constructor used by
cmd_filter passes the three components through. -/
structure DataFile where
  dictionary : List DictEntry
  glyphs : List Glyph
  fontinfo : FontInfo
deriving DecidableEq

/-! ### The filter command (cmd_filter, main.cc lines 201-222)

The inner loop of cmd_filter walks a glyph's character list by index,
erasing the element at position j (and decrementing j) whenever the allowed
set does not contain it; each element is therefore examined exactly once in
order and kept iff the allowed set contains it.  The allowed std::set is
modelled by a list queried through membership only. -/

/-- Character-list filtering performed by cmd_filter's erase loop. -/
def filterChars (allowed : List Int) : List Int → List Int
  | [] => []
  | c :: cs =>
    if allowed.contains c then c :: filterChars allowed cs
    else filterChars allowed cs

/-- One glyph after cmd_filter's character filtering. -/
def filterGlyph (allowed : List Int) (g : Glyph) : Glyph :=
  { g with chars := filterChars allowed g.chars }

/-- The newglyphs accumulation of cmd_filter: a filtered glyph is pushed
exactly when its character list stayed non-empty. -/
def filterGlyphs (allowed : List Int) : List Glyph → List Glyph
  | [] => []
  | g :: gs =>
    let g' := filterGlyph allowed g
    if g'.chars.isEmpty then filterGlyphs allowed gs
    else g' :: filterGlyphs allowed gs

/-- The data-file transformation of cmd_filter: the new data file is built
from the old dictionary, the filtered glyph list and the old font info. -/
def cmdFilterCore (allowed : List Int) (f : DataFile) : DataFile :=
  ⟨f.dictionary, filterGlyphs allowed f.glyphs, f.fontinfo⟩

/-! ### The encoder (modelled from the spec)

encode.cc / encode.hh are not in src; the token alphabet and the greedy
encoder are modelled from spec section 4.3.  A token is one of: a zero-run
(1-15 background pixels), a fifteen-run (1-8 foreground pixels), a
dictionary reference, or a literal pair of two pixels each in 1..14.
The byte values: 0 reserved, 1..15 zero-run, 16..23 fifteen-run,
24..24+dictLen-1 dictionary reference, and the remainder literal pairs
(the exact pair-to-byte bijection is left open by the spec; the model fixes
byte = litBase + (a-1)*14 + (b-1)). -/

/-- Base index of dictionary references in the token byte alphabet. -/
def DICT_START : Nat := 24

/-- Modelled from the spec: the token alphabet of section 4.3. -/
inductive Tok where
  | zeroRun : Nat → Tok
  | fifteenRun : Nat → Tok
  | dictRef : Nat → Tok
  | litPair : Nat → Nat → Tok
deriving DecidableEq

/-- Pixel expansion of one token, given the expansions of the dictionary
entries (out-of-range references expand to nothing). -/
def tokPixels (dexp : List (List Nat)) : Tok → List Nat
  | .zeroRun n => List.replicate n 0
  | .fifteenRun n => List.replicate n 15
  | .dictRef i => dexp.getD i []
  | .litPair a b => [a, b]

/-- Pixel expansion of a whole token stream: concatenation. -/
def decTok (dexp : List (List Nat)) (ts : List Tok) : List Nat :=
  (ts.map (tokPixels dexp)).flatten

/-- Validity of a token with respect to a dictionary of dictLen entries:
run lengths in range, references in range, literal components in 1..14. -/
def validTok (dictLen : Nat) : Tok → Prop
  | .zeroRun n => 1 ≤ n ∧ n ≤ 15
  | .fifteenRun n => 1 ≤ n ∧ n ≤ 8
  | .dictRef i => i < dictLen
  | .litPair a b => 1 ≤ a ∧ a ≤ 14 ∧ 1 ≤ b ∧ b ≤ 14

instance (dictLen : Nat) (t : Tok) : Decidable (validTok dictLen t) := by
  cases t <;> simp only [validTok] <;> infer_instance

/-- Number of leading pixels equal to v. -/
def countLeading (v : Nat) : List Nat → Nat
  | [] => 0
  | p :: ps => if p = v then countLeading v ps + 1 else 0

/-- Dictionary-reference candidates: every non-empty dictionary expansion
that is a prefix of the remaining pixel suffix, with its consumed length,
in order of increasing index i (the list starts at index i). -/
def dictCandsAux (rest : List Nat) : Nat → List (List Nat) → List (Tok × Nat)
  | _, [] => []
  | i, e :: es =>
    if ¬ e.isEmpty ∧ rest.take e.length = e then
      (Tok.dictRef i, e.length) :: dictCandsAux rest (i + 1) es
    else dictCandsAux rest (i + 1) es

/-- Run candidate: the longest zero-run (capped at 15) or, failing that,
the longest fifteen-run (capped at 8) matching the suffix. -/
def runCandidate (rest : List Nat) : Option (Tok × Nat) :=
  let z := min (countLeading 0 rest) 15
  if z ≠ 0 then some (Tok.zeroRun z, z)
  else
    let o := min (countLeading 15 rest) 8
    if o ≠ 0 then some (Tok.fifteenRun o, o) else none

/-- Literal-pair candidate: the next two pixels when both lie in 1..14. -/
def litCandidate : List Nat → Option (Tok × Nat)
  | a :: b :: _ =>
    if 1 ≤ a ∧ a ≤ 14 ∧ 1 ≤ b ∧ b ≤ 14 then some (Tok.litPair a b, 2) else none
  | _ => none

/-- Pick the candidate consuming the most pixels; on ties the earliest
listed candidate wins, implementing the priority dictionary reference over
run over literal pair, lower dictionary index over higher. -/
def pickStep (acc : Option (Tok × Nat)) (c : Tok × Nat) : Option (Tok × Nat) :=
  match acc with
  | none => some c
  | some best => if best.2 < c.2 then some c else some best

/-- Fold of pickStep over the candidate list. -/
def pickBest (cands : List (Tok × Nat)) : Option (Tok × Nat) :=
  cands.foldl pickStep none

/-- All candidates for the next token, in priority order. -/
def stepCands (dexp : List (List Nat)) (rest : List Nat) : List (Tok × Nat) :=
  dictCandsAux rest 0 dexp ++ (runCandidate rest).toList ++ (litCandidate rest).toList

/-- Modelled from the spec: one greedy choice of the encoder. -/
def encodeStep (dexp : List (List Nat)) (rest : List Nat) : Option (Tok × Nat) :=
  pickBest (stepCands dexp rest)

/-- Modelled from the spec: the greedy encoder loop, with fuel bounding the
number of emitted tokens; none when no token matches the suffix. -/
def encodeAux (dexp : List (List Nat)) : Nat → List Nat → Option (List Tok)
  | _, [] => some []
  | 0, _ :: _ => none
  | fuel + 1, p :: rest =>
    match encodeStep dexp (p :: rest) with
    | none => none
    | some (t, n) =>
      match encodeAux dexp fuel ((p :: rest).drop n) with
      | none => none
      | some ts => some (t :: ts)

/-- Byte representation of a token, for a dictionary of dictLen entries. -/
def tokToByte (dictLen : Nat) : Tok → Nat
  | .zeroRun n => n
  | .fifteenRun n => 15 + n
  | .dictRef i => DICT_START + i
  | .litPair a b => DICT_START + dictLen + (a - 1) * 14 + (b - 1)

/-- Modelled from the spec: interpretation of one byte of the token
alphabet (byte 0 is the reserved terminator and is not a token). -/
def byteToTok (dictLen : Nat) (b : Nat) : Option Tok :=
  if b = 0 then none
  else if b ≤ 15 then some (Tok.zeroRun b)
  else if b ≤ 23 then some (Tok.fifteenRun (b - 15))
  else if b < DICT_START + dictLen then some (Tok.dictRef (b - DICT_START))
  else
    let k := b - DICT_START - dictLen
    if k < 196 then some (Tok.litPair (k / 14 + 1) (k % 14 + 1)) else none

/-- Decode a byte string into tokens; none on any unmapped byte. -/
def decodeToks (dictLen : Nat) : List Nat → Option (List Tok)
  | [] => some []
  | b :: bs =>
    match byteToTok dictLen b, decodeToks dictLen bs with
    | some t, some ts => some (t :: ts)
    | _, _ => none

/-- Pixel expansion of one stored token inside an RLE dictionary entry:
the RLE alphabet is restricted to run and literal tokens, so a dictionary
reference contributes nothing. -/
def tokPixelsRLE : Tok → List Nat
  | .zeroRun n => List.replicate n 0
  | .fifteenRun n => List.replicate n 15
  | .dictRef _ => []
  | .litPair a b => [a, b]

/-- Modelled from the spec: pixel expansion of one dictionary entry, given
the expansions acc of all strictly earlier entries.  An RLE entry decodes
its bytes with the restricted alphabet; a REF entry may also reference
earlier entries. -/
def entryPixels (dictLen : Nat) (acc : List (List Nat)) (e : DictEntry) : List Nat :=
  match decodeToks dictLen e.bytes with
  | none => []
  | some ts =>
    match e.kind with
    | .rle => (ts.map tokPixelsRLE).flatten
    | .ref => decTok acc ts

/-- Modelled from the spec: expansions of all dictionary entries, built in
order so that each entry sees only the earlier expansions. -/
def dictExpansions (entries : List DictEntry) : List (List Nat) :=
  entries.foldl (fun acc e => acc ++ [entryPixels entries.length acc e]) []

/-- Modelled from the spec: greedy encoding of one pixel sequence into a
token stream under the given dictionary. -/
def encodeGlyphTokens (dict : List DictEntry) (pixels : List Nat) : Option (List Tok) :=
  encodeAux (dictExpansions dict) pixels.length pixels

/-- Modelled from the spec: the token byte string the encoder produces for
one glyph bitmap. -/
def encodeGlyphBytes (dict : List DictEntry) (pixels : List Nat) : Option (List Nat) :=
  (encodeGlyphTokens dict pixels).map (List.map (tokToByte dict.length))

/-- Reference decoder mirroring section 4.3: bytes to tokens to pixels. -/
def decodeBytes (dict : List DictEntry) (bs : List Nat) : Option (List Nat) :=
  (decodeToks dict.length bs).map (decTok (dictExpansions dict))

/-! ### Batch encoding and the size estimator (modelled from the spec) -/

/-- Modelled from the spec: the encoded_font_t value — RLE dictionary byte
strings, REF dictionary byte strings, and one byte string per glyph. -/
structure EncodedFont where
  rle_dictionary : List (List Nat)
  ref_dictionary : List (List Nat)
  glyphs : List (List Nat)
deriving DecidableEq

/-- True for run-length dictionary entries. -/
def DictEntry.isRLE (e : DictEntry) : Bool :=
  match e.kind with
  | .rle => true
  | .ref => false

/-- Encode every glyph of a list; none as soon as one glyph fails. -/
def encodeGlyphsAll (dict : List DictEntry) : List Glyph → Option (List (List Nat))
  | [] => some []
  | g :: gs =>
    match encodeGlyphBytes dict g.data, encodeGlyphsAll dict gs with
    | some b, some bs => some (b :: bs)
    | _, _ => none

/-- Modelled from the spec: encode_font — the batch operation returning the
RLE dictionary, the REF dictionary and the glyph streams in glyph order. -/
def encode_font (f : DataFile) : Option EncodedFont :=
  match encodeGlyphsAll f.dictionary f.glyphs with
  | none => none
  | some gs =>
    some ⟨(f.dictionary.filter (fun e => e.isRLE)).map (fun e => e.bytes),
          (f.dictionary.filter (fun e => !e.isRLE)).map (fun e => e.bytes),
          gs⟩

/-- Modelled from the spec: fixed header overhead of the encoded format. -/
def fontHeaderSize : Nat := 16

/-- Modelled from the spec: get_encoded_size — total bytes of the encoded
font: header, one length byte plus the bytes of each dictionary entry, and
one two-byte length word plus the bytes of each glyph stream. -/
def get_encoded_size (f : DataFile) : Nat :=
  match encode_font f with
  | none => 0
  | some e =>
    fontHeaderSize
      + (((e.rle_dictionary ++ e.ref_dictionary).map (fun b => b.length + 1)).sum)
      + ((e.glyphs.map (fun b => b.length + 2)).sum)

/-- Written from the words of spec section 4.4, for comparison with
get_encoded_size: sum of dictionary-entry byte lengths plus one length byte
per entry, plus sum of glyph token-stream lengths plus one length word per
glyph, plus a fixed header overhead. -/
def encoded_size_spec (f : DataFile) : Nat :=
  match encodeGlyphsAll f.dictionary f.glyphs with
  | none => 0
  | some gs =>
    fontHeaderSize
      + ((f.dictionary.map (fun e => e.bytes.length + 1)).sum)
      + ((gs.map (fun b => b.length + 2)).sum)

/-! ### The optimizer (modelled from the spec) -/

/-- Modelled from the spec (optimize.cc is not in src): one optimizer
iteration.  The randomized proposal generator is injected as a parameter
(spec design note on RNG injection); the candidate replaces the data file
iff the total encoded size strictly decreased. -/
def optimize (mutate : DataFile → DataFile) (f : DataFile) : DataFile :=
  let cand := mutate f
  if get_encoded_size cand < get_encoded_size f then cand else f

/-- A proposal is accepted exactly when it strictly shrinks the size. -/
def proposalAccepted (mutate : DataFile → DataFile) (f : DataFile) : Prop :=
  get_encoded_size (mutate f) < get_encoded_size f

instance (mutate : DataFile → DataFile) (f : DataFile) :
    Decidable (proposalAccepted mutate f) := by
  unfold proposalAccepted; infer_instance

/-! ### The optimize command loop (cmd_optimize, main.cc lines 272-303)

The loop `while (!limit || i < limit)` calls optimize on the in-memory data
file, then saves it to the source path; a failed save returns STATUS_ERROR
(2) at once.  The model abstracts one optimize call as a step function on a
state type, records every successful disk write in order, and uses fuel to
witness (non-)termination: none means the fuel ran out with the loop still
running. -/

/-- Outcome of the cmd_optimize loop: final in-memory state, final on-disk
state, the successful disk writes in order, and the returned status. -/
structure LoopOut (S : Type) where
  mem : S
  disk : S
  writes : List S
  status : Nat
deriving DecidableEq

/-- The loop condition of cmd_optimize: C's !limit || i < limit. -/
def loopCond (limit i : Int) : Bool :=
  limit == 0 || i < limit

/-- The cmd_optimize loop with fuel.  Each pass optimizes (step), then
saves; save failure ends the loop with status 2 and the disk unchanged. -/
def optLoopAux (step : S → S) (saveOk : S → Bool) (limit : Int) :
    Nat → Int → S → S → Option (LoopOut S)
  | 0, i, f, disk => if loopCond limit i then none else some ⟨f, disk, [], 0⟩
  | fuel + 1, i, f, disk =>
    if loopCond limit i then
      let f' := step f
      if saveOk f' then
        match optLoopAux step saveOk limit fuel (i + 1) f' f' with
        | none => none
        | some r => some ⟨r.mem, r.disk, f' :: r.writes, r.status⟩
      else some ⟨f', disk, [], 2⟩
    else some ⟨f, disk, [], 0⟩

/-- The iteration limit of cmd_optimize: 100 when no third argument is
given, otherwise the parsed third argument. -/
def limitOf (arg : Option Int) : Int :=
  match arg with
  | none => 100
  | some n => n

/-! ### The show_encoded command (cmd_show_encoded, main.cc lines 319-343) -/

/-- Tag of one printed line of cmd_show_encoded. -/
inductive LineTag where
  | dictRLE
  | dictRef
  | glyphLine
deriving DecidableEq

/-- One printed line of cmd_show_encoded: its tag, the printed index and
the printed bytes. -/
structure OutLine where
  tag : LineTag
  index : Nat
  bytes : List Nat
deriving DecidableEq

/-- One printing loop of cmd_show_encoded: label each byte string with the
running counter, starting at base. -/
def labelFrom (tag : LineTag) (base : Nat) : List (List Nat) → List OutLine
  | [] => []
  | b :: bs => ⟨tag, base, b⟩ :: labelFrom tag (base + 1) bs

/-- The lines printed by cmd_show_encoded: RLE dictionary entries labelled
from 24 (DICT_START), REF entries continuing the same counter, then the
glyph streams labelled from 0. -/
def showEncodedLines (e : EncodedFont) : List OutLine :=
  labelFrom .dictRLE DICT_START e.rle_dictionary
    ++ labelFrom .dictRef (DICT_START + e.rle_dictionary.length) e.ref_dictionary
    ++ labelFrom .glyphLine 0 e.glyphs

/-! ### The size command (cmd_size, main.cc lines 242-252)

Line 251 prints size / f->GetGlyphCount() with no guard against an empty
glyph list; the guarded embedding makes the division-by-zero branch
explicit. -/

/-- The Bytes-per-glyph figure of cmd_size, guarded: none exactly when the
divisor (the glyph count) is zero. -/
def bytesPerGlyph (f : DataFile) : Option Nat :=
  if f.glyphs.length = 0 then none
  else some (get_encoded_size f / f.glyphs.length)

/-! ### Argument parsing of cmd_filter (main.cc lines 169-192)

Each character-set argument is parsed with std::stoi base 0; an argument
holding a '-' is split at the first dash into a range.  std::stoi throws
std::invalid_argument when no digits can be parsed; the model returns none
there. -/

/-- Value of one character as a digit (0-9, a-f, A-F). -/
def digitVal (c : Char) : Option Nat :=
  if '0' ≤ c ∧ c ≤ '9' then some (c.toNat - '0'.toNat)
  else if 'a' ≤ c ∧ c ≤ 'f' then some (c.toNat - 'a'.toNat + 10)
  else if 'A' ≤ c ∧ c ≤ 'F' then some (c.toNat - 'A'.toNat + 10)
  else none

/-- Whether c is a digit of the given base. -/
def isDigitB (base : Nat) (c : Char) : Bool :=
  match digitVal c with
  | some d => d < base
  | none => false

/-- The longest run of leading digits of the given base, as digit values. -/
def takeDigits (base : Nat) : List Char → List Nat
  | [] => []
  | c :: cs =>
    match digitVal c with
    | some d => if d < base then d :: takeDigits base cs else []
    | none => []

/-- Value of a digit list in the given base. -/
def natOfDigits (base : Nat) (ds : List Nat) : Nat :=
  ds.foldl (fun a d => a * base + d) 0

/-- Parse the leading digits of a fixed base; none when there are none
(std::stoi ignores trailing junk but throws with no digits at all). -/
def stoiCore (base : Nat) (cs : List Char) : Option Nat :=
  let ds := takeDigits base cs
  if ds.isEmpty then none else some (natOfDigits base ds)

/-- Drop leading whitespace, as std::stoi does. -/
def skipWs : List Char → List Char
  | c :: cs => if c = ' ' ∨ c = '\t' ∨ c = '\n' then skipWs cs else c :: cs
  | [] => []

/-- Modelled std::stoi with base 0: optional whitespace and sign, then a
hex number after 0x or 0X, an octal number after a leading 0, or a decimal
number; none (the thrown std::invalid_argument) when no digits parse. -/
def stoi0 (s : List Char) : Option Int :=
  let cs := skipWs s
  let signed : Bool × List Char :=
    match cs with
    | '-' :: r => (true, r)
    | '+' :: r => (false, r)
    | _ => (false, cs)
  let mag : Option Nat :=
    match signed.2 with
    | '0' :: x :: r =>
      if (x = 'x' ∨ x = 'X') ∧ isDigitB 16 (r.headD ' ') then stoiCore 16 r
      else stoiCore 8 signed.2
    | _ => stoiCore 10 signed.2
  mag.map (fun m => if signed.1 then -(m : Int) else (m : Int))

/-- Index of the first '-' in the argument, as std::string::find returns. -/
def findDash : List Char → Option Nat
  | [] => none
  | c :: cs => if c = '-' then some 0 else (findDash cs).map (· + 1)

/-- The integers a, a+1, ..., b inserted by cmd_filter's range loop
(empty when a > b). -/
def rangeIncl (a b : Int) : List Int :=
  (List.range (b + 1 - a).toNat).map (fun (k : Nat) => a + (k : Int))

/-- One character-set argument of cmd_filter: no dash means a single code;
otherwise the substrings before and after the first dash bound a range;
none models the uncaught std::invalid_argument from std::stoi. -/
def processArg (s : List Char) : Option (List Int) :=
  match findDash s with
  | none => (stoi0 s).map (fun v => [v])
  | some pos =>
    match stoi0 (s.take pos), stoi0 (s.drop (pos + 1)) with
    | some a, some b => some (rangeIncl a b)
    | _, _ => none

/-! ### Concrete sample data used by witness theorems -/

/-- Sample font info for witnesses. -/
def w1Info : FontInfo := ⟨"sample", 4, 4, 0, 3, 5, 0⟩

/-- Sample all-background glyph mapped to character codes 65 and 66. -/
def w1Glyph : Glyph := ⟨List.replicate 16 0, 4, 4, 5, [65, 66]⟩

/-- Sample all-foreground glyph mapped to character code 67. -/
def w1Glyph2 : Glyph := ⟨List.replicate 16 15, 4, 4, 5, [67]⟩

/-- Sample data file with two glyphs and an empty dictionary. -/
def w1File : DataFile := ⟨[], [w1Glyph, w1Glyph2], w1Info⟩

/-- Sample allowed set keeping only character code 65. -/
def w1Allowed : List Int := [65]

/-- Sample data file with one glyph, used for reachability of the empty
glyph list through the filter. -/
def w2File : DataFile := ⟨[], [w1Glyph2], w1Info⟩

/-! ## Theorems -/

/-- filterChars keeps exactly the characters the allowed set contains, in
their original order. -/
theorem filterChars_eq_filter (allowed : List Int) (cs : List Int) :
    filterChars allowed cs = cs.filter (fun c => allowed.contains c) := by
  induction cs with
  | nil => rfl
  | cons c cs ih =>
    by_cases h : allowed.contains c = true <;>
      simp [filterChars, List.filter_cons, h, ih]

/-- The glyph list built by cmd_filter is the original list restricted to
glyphs whose filtered character list is non-empty, each with its characters
filtered. -/
theorem filterGlyphs_eq (allowed : List Int) (gs : List Glyph) :
    filterGlyphs allowed gs
      = (gs.filter (fun g => ¬ (filterChars allowed g.chars).isEmpty)).map
          (filterGlyph allowed) := by
  induction gs with
  | nil => rfl
  | cons g gs ih =>
    by_cases h : filterChars allowed g.chars = [] <;>
      simp [filterGlyphs, filterGlyph, List.filter_cons, List.isEmpty_iff, h, ih]

/-- Claim C1: for every loaded data file and every allowed set, cmd_filter
drops exactly the glyphs whose character list becomes empty after removing
disallowed codes, and the bitmaps (data, width, height, advance) of every
surviving glyph, the dictionary entry list and the font info of the result
are identical to those of the input. -/
theorem filter_drops_empty_glyphs (allowed : List Int) (f : DataFile) :
    (cmdFilterCore allowed f).dictionary = f.dictionary
    ∧ (cmdFilterCore allowed f).fontinfo = f.fontinfo
    ∧ (cmdFilterCore allowed f).glyphs
        = (f.glyphs.filter (fun g => ¬ (filterChars allowed g.chars).isEmpty)).map
            (filterGlyph allowed)
    ∧ ∀ g' ∈ (cmdFilterCore allowed f).glyphs, ∃ g ∈ f.glyphs,
        g'.data = g.data ∧ g'.width = g.width ∧ g'.height = g.height
          ∧ g'.advance = g.advance := by
  refine ⟨rfl, rfl, filterGlyphs_eq allowed f.glyphs, ?_⟩
  intro g' hg'
  rw [show (cmdFilterCore allowed f).glyphs = filterGlyphs allowed f.glyphs from rfl,
    filterGlyphs_eq] at hg'
  rcases List.mem_map.mp hg' with ⟨g, hgmem, rfl⟩
  exact ⟨g, (List.mem_filter.mp hgmem).1, rfl, rfl, rfl, rfl⟩

/-- Witness for C1: in the sample file the survivor of filtering by
code 65 carries the bitmap of the first sample glyph. -/
theorem filter_drops_empty_glyphs_witness :
    ∃ g ∈ w1File.glyphs,
      (filterGlyph w1Allowed w1Glyph).data = g.data
      ∧ (filterGlyph w1Allowed w1Glyph).width = g.width
      ∧ (filterGlyph w1Allowed w1Glyph).height = g.height
      ∧ (filterGlyph w1Allowed w1Glyph).advance = g.advance :=
  (filter_drops_empty_glyphs w1Allowed w1File).2.2.2
    (filterGlyph w1Allowed w1Glyph) (by decide)

/-- Claim C2: after cmd_filter each surviving glyph's character list equals
its original list with all disallowed codes removed in order, every code of
the result is allowed, and pairwise disjointness of the glyphs' character
sets is preserved. -/
theorem filter_chars_semantics (allowed : List Int) (f : DataFile) :
    (∀ g' ∈ (cmdFilterCore allowed f).glyphs, ∃ g ∈ f.glyphs,
        g'.chars = g.chars.filter (fun c => allowed.contains c))
    ∧ (∀ g' ∈ (cmdFilterCore allowed f).glyphs, ∀ c ∈ g'.chars,
        allowed.contains c = true)
    ∧ (List.Pairwise (fun g₁ g₂ => ∀ c, c ∈ g₁.chars → c ∉ g₂.chars) f.glyphs →
        List.Pairwise (fun g₁ g₂ => ∀ c, c ∈ g₁.chars → c ∉ g₂.chars)
          (cmdFilterCore allowed f).glyphs) := by
  have hge :
      (cmdFilterCore allowed f).glyphs
        = (f.glyphs.filter (fun g => ¬ (filterChars allowed g.chars).isEmpty)).map
            (filterGlyph allowed) := filterGlyphs_eq allowed f.glyphs
  refine ⟨?_, ?_, ?_⟩
  · intro g' hg'
    rw [hge] at hg'
    rcases List.mem_map.mp hg' with ⟨g, hgmem, rfl⟩
    exact ⟨g, (List.mem_filter.mp hgmem).1, filterChars_eq_filter allowed g.chars⟩
  · intro g' hg' c hc
    rw [hge] at hg'
    rcases List.mem_map.mp hg' with ⟨g, _, rfl⟩
    have : c ∈ g.chars.filter (fun c => allowed.contains c) := by
      rwa [show (filterGlyph allowed g).chars = filterChars allowed g.chars from rfl,
        filterChars_eq_filter] at hc
    exact (List.mem_filter.mp this).2
  · intro hpw
    rw [hge]
    rw [List.pairwise_map]
    refine List.Pairwise.imp ?_
      (hpw.sublist (List.filter_sublist f.glyphs))
    intro g₁ g₂ h c hc₁ hc₂
    have hc₁' : c ∈ g₁.chars := by
      rw [show (filterGlyph allowed g₁).chars = filterChars allowed g₁.chars from rfl,
        filterChars_eq_filter] at hc₁
      exact (List.mem_filter.mp hc₁).1
    have hc₂' : c ∈ g₂.chars := by
      rw [show (filterGlyph allowed g₂).chars = filterChars allowed g₂.chars from rfl,
        filterChars_eq_filter] at hc₂
      exact (List.mem_filter.mp hc₂).1
    exact h c hc₁' hc₂'

/-- Witness for C2: in the filtered sample file the surviving glyph's
character list is the allowed restriction of an input glyph's list. -/
theorem filter_chars_semantics_witness :
    ∃ g ∈ w1File.glyphs,
      (filterGlyph w1Allowed w1Glyph).chars
        = g.chars.filter (fun c => w1Allowed.contains c) :=
  (filter_chars_semantics w1Allowed w1File).1
    (filterGlyph w1Allowed w1Glyph) (by decide)

/-- Whatever pickStep's fold returns was the accumulator or a list element. -/
theorem pickStep_foldl_mem :
    ∀ (l : List (Tok × Nat)) (acc : Option (Tok × Nat)) (c : Tok × Nat),
      l.foldl pickStep acc = some c → acc = some c ∨ c ∈ l := by
  intro l
  induction l with
  | nil => intro acc c h; exact Or.inl h
  | cons x xs ih =>
    intro acc c h
    rcases ih (pickStep acc x) c h with h' | h'
    · cases acc with
      | none =>
        simp only [pickStep] at h'
        exact Or.inr (Option.some.inj h' ▸ List.mem_cons_self x xs)
      | some best =>
        by_cases hlt : best.2 < x.2
        · simp only [pickStep, if_pos hlt] at h'
          exact Or.inr (Option.some.inj h' ▸ List.mem_cons_self x xs)
        · simp only [pickStep, if_neg hlt] at h'
          exact Or.inl h'
    · exact Or.inr (List.mem_cons_of_mem x h')

/-- A take of at most the leading-run length yields a replicate. -/
theorem take_countLeading (v : Nat) :
    ∀ (rest : List Nat) (k : Nat), k ≤ countLeading v rest →
      rest.take k = List.replicate k v := by
  intro rest
  induction rest with
  | nil =>
    intro k hk
    simp only [countLeading, Nat.le_zero] at hk
    subst hk
    rfl
  | cons p ps ih =>
    intro k hk
    simp only [countLeading] at hk
    by_cases hp : p = v
    · rw [if_pos hp] at hk
      cases k with
      | zero => rfl
      | succ k =>
        simp only [List.take_succ_cons, List.replicate_succ, hp]
        rw [ih k (by omega)]
    · rw [if_neg hp] at hk
      obtain rfl : k = 0 := by omega
      rfl

/-- Every dictionary candidate expands to the prefix it claims and carries
an in-range index, provided the scanned suffix agrees with dexp from i. -/
theorem dictCandsAux_sound (dexp : List (List Nat)) (rest : List Nat) :
    ∀ (es : List (List Nat)) (i : Nat),
      (∀ j, es.getD j [] = dexp.getD (i + j) []) →
      ∀ c ∈ dictCandsAux rest i es,
        tokPixels dexp c.1 = rest.take c.2 ∧ validTok dexp.length c.1 := by
  intro es
  induction es with
  | nil => intro i _ c hc; simp [dictCandsAux] at hc
  | cons e es ih =>
    intro i hH c hc
    have htail : ∀ j, es.getD j [] = dexp.getD (i + 1 + j) [] := by
      intro j
      have := hH (j + 1)
      simpa [List.getD_cons_succ, show i + (j + 1) = i + 1 + j by omega] using this
    unfold dictCandsAux at hc
    by_cases hcond : (¬ e.isEmpty ∧ rest.take e.length = e)
    · rw [if_pos hcond] at hc
      rcases List.mem_cons.mp hc with rfl | hmem
      · have he : e = dexp.getD i [] := by
          have := hH 0
          simpa using this
        refine ⟨?_, ?_⟩
        · simp only [tokPixels, ← he, hcond.2]
        · simp only [validTok]
          by_contra hge
          rw [List.getD_eq_default _ _ (Nat.le_of_not_lt hge)] at he
          rw [he] at hcond
          simp at hcond
      · exact ih (i + 1) htail c hmem
    · rw [if_neg hcond] at hc
      exact ih (i + 1) htail c hc

/-- Every candidate of a greedy step expands to the prefix it claims to
consume and is a valid token for the dictionary. -/
theorem stepCands_sound (dexp : List (List Nat)) (rest : List Nat) :
    ∀ c ∈ stepCands dexp rest,
      tokPixels dexp c.1 = rest.take c.2 ∧ validTok dexp.length c.1 := by
  intro c hc
  unfold stepCands at hc
  rcases List.mem_append.mp hc with hc' | hlit
  · rcases List.mem_append.mp hc' with hdict | hrun
    · exact dictCandsAux_sound dexp rest dexp 0 (fun j => by simp) c hdict
    · have hr : runCandidate rest = some c := by
        cases h : runCandidate rest with
        | none => rw [h] at hrun; simp at hrun
        | some c' => rw [h] at hrun; simp at hrun; rw [hrun]
      unfold runCandidate at hr
      by_cases hz : min (countLeading 0 rest) 15 ≠ 0
      · rw [if_pos hz] at hr
        obtain rfl : (Tok.zeroRun (min (countLeading 0 rest) 15),
            min (countLeading 0 rest) 15) = c := Option.some.inj hr
        refine ⟨?_, ?_⟩
        · simp only [tokPixels]
          exact (take_countLeading 0 rest _ (Nat.min_le_left _ _)).symm
        · exact ⟨Nat.pos_of_ne_zero hz, Nat.min_le_right _ _⟩
      · rw [if_neg hz] at hr
        by_cases ho : min (countLeading 15 rest) 8 ≠ 0
        · rw [if_pos ho] at hr
          obtain rfl : (Tok.fifteenRun (min (countLeading 15 rest) 8),
              min (countLeading 15 rest) 8) = c := Option.some.inj hr
          refine ⟨?_, ?_⟩
          · simp only [tokPixels]
            exact (take_countLeading 15 rest _ (Nat.min_le_left _ _)).symm
          · exact ⟨Nat.pos_of_ne_zero ho, Nat.min_le_right _ _⟩
        · rw [if_neg ho] at hr
          exact absurd hr (by simp)
  · match rest, hlit with
    | [], hlit => exact absurd hlit (by simp [litCandidate])
    | [a], hlit => exact absurd hlit (by simp [litCandidate])
    | a :: b :: t, hlit =>
      have hl : litCandidate (a :: b :: t) = some c := by
        cases h : litCandidate (a :: b :: t) with
        | none => rw [h] at hlit; simp at hlit
        | some c' => rw [h] at hlit; simp at hlit; rw [hlit]
      simp only [litCandidate] at hl
      by_cases hg : 1 ≤ a ∧ a ≤ 14 ∧ 1 ≤ b ∧ b ≤ 14
      · rw [if_pos hg] at hl
        obtain rfl : (Tok.litPair a b, 2) = c := Option.some.inj hl
        exact ⟨rfl, hg⟩
      · rw [if_neg hg] at hl
        exact absurd hl (by simp)

/-- A successful greedy step consumes exactly the prefix its token expands
to, and emits a valid token. -/
theorem encodeStep_sound (dexp : List (List Nat)) (rest : List Nat) (t : Tok) (n : Nat)
    (h : encodeStep dexp rest = some (t, n)) :
    tokPixels dexp t = rest.take n ∧ validTok dexp.length t := by
  have hmem : (t, n) ∈ stepCands dexp rest := by
    rcases pickStep_foldl_mem _ none _ h with h' | h'
    · exact absurd h' (by simp)
    · exact h'
  exact stepCands_sound dexp rest (t, n) hmem

/-- Token-level coverage: a successful encoding decodes back to exactly the
input pixel sequence, and every emitted token is valid. -/
theorem encodeAux_sound (dexp : List (List Nat)) :
    ∀ (fuel : Nat) (rest : List Nat) (ts : List Tok),
      encodeAux dexp fuel rest = some ts →
      decTok dexp ts = rest ∧ ∀ t ∈ ts, validTok dexp.length t := by
  intro fuel
  induction fuel with
  | zero =>
    intro rest ts h
    cases rest with
    | nil =>
      obtain rfl : [] = ts := Option.some.inj h
      exact ⟨rfl, by simp⟩
    | cons p r => exact absurd h (by simp [encodeAux])
  | succ fuel ih =>
    intro rest ts h
    cases rest with
    | nil =>
      obtain rfl : [] = ts := Option.some.inj h
      exact ⟨rfl, by simp⟩
    | cons p r =>
      unfold encodeAux at h
      cases hstep : encodeStep dexp (p :: r) with
      | none => simp only [hstep] at h; exact absurd h (by simp)
      | some tn =>
        obtain ⟨t, n⟩ := tn
        simp only [hstep] at h
        cases hrec : encodeAux dexp fuel ((p :: r).drop n) with
        | none => simp only [hrec] at h; exact absurd h (by simp)
        | some ts' =>
          simp only [hrec] at h
          obtain rfl : t :: ts' = ts := Option.some.inj h
          obtain ⟨hpre, hval⟩ := encodeStep_sound dexp (p :: r) t n hstep
          obtain ⟨ih1, ih2⟩ := ih _ _ hrec
          refine ⟨?_, ?_⟩
          · show tokPixels dexp t ++ decTok dexp ts' = p :: r
            rw [hpre, ih1, List.take_append_drop]
          · intro t' ht'
            rcases List.mem_cons.mp ht' with rfl | ht'
            · exact hval
            · exact ih2 t' ht'

/-- Round trip of the token byte representation on valid tokens. -/
theorem byteToTok_tokToByte (dictLen : Nat) (t : Tok) (h : validTok dictLen t) :
    byteToTok dictLen (tokToByte dictLen t) = some t := by
  cases t <;>
    simp only [validTok] at h <;>
    simp only [tokToByte, byteToTok, DICT_START] <;>
    split_ifs <;>
    (try simp only [Option.some.injEq, Tok.zeroRun.injEq, Tok.fifteenRun.injEq,
      Tok.dictRef.injEq, Tok.litPair.injEq, reduceCtorEq]) <;>
    omega

/-- Decoding the byte string of a valid token list recovers the tokens. -/
theorem decodeToks_map_tokToByte (dictLen : Nat) :
    ∀ ts : List Tok, (∀ t ∈ ts, validTok dictLen t) →
      decodeToks dictLen (ts.map (tokToByte dictLen)) = some ts := by
  intro ts
  induction ts with
  | nil => intro _; rfl
  | cons t ts ih =>
    intro h
    have h1 := byteToTok_tokToByte dictLen t (h t (List.mem_cons_self t ts))
    have h2 := ih (fun t' ht' => h t' (List.mem_cons_of_mem t ht'))
    simp only [List.map_cons, decodeToks, h1, h2]

/-- The dictionary expansion list has one expansion per entry. -/
theorem dictExpansions_length (entries : List DictEntry) :
    (dictExpansions entries).length = entries.length := by
  suffices h : ∀ (l : List DictEntry) (acc : List (List Nat)),
      (l.foldl (fun acc e => acc ++ [entryPixels entries.length acc e]) acc).length
        = acc.length + l.length by
    simpa using h entries []
  intro l
  induction l with
  | nil => intro acc; simp
  | cons e l ih =>
    intro acc
    simp only [List.foldl_cons, ih, List.length_append, List.length_cons,
      List.length_nil]
    omega

/-- Claim C4: for every glyph bitmap and dictionary, decoding the token
byte string produced by the encoder according to the token semantics of
section 4.3 (zero-run, fifteen-run, dictionary reference, literal pair)
yields exactly the glyph's pixel sequence — no pixels missing, extra, or
altered. -/
theorem encode_decode_coverage (dict : List DictEntry) (g : Glyph) (bs : List Nat)
    (h : encodeGlyphBytes dict g.data = some bs) :
    decodeBytes dict bs = some g.data := by
  unfold encodeGlyphBytes at h
  cases hts : encodeGlyphTokens dict g.data with
  | none => rw [hts] at h; exact absurd h (by simp)
  | some ts =>
    rw [hts] at h
    simp only [Option.map_some'] at h
    unfold encodeGlyphTokens at hts
    obtain ⟨hdec, hval⟩ := encodeAux_sound (dictExpansions dict) _ _ _ hts
    obtain rfl : List.map (tokToByte dict.length) ts = bs := Option.some.inj h
    unfold decodeBytes
    have hval' : ∀ t ∈ ts, validTok dict.length t := by
      intro t ht
      have := hval t ht
      rwa [dictExpansions_length] at this
    rw [decodeToks_map_tokToByte dict.length ts hval']
    simp only [Option.map_some']
    rw [hdec]

/-- Witness for C4: the sample all-background glyph encodes against the
empty dictionary to the bytes 15 and 1, and those decode back to its
sixteen background pixels. -/
theorem encode_decode_coverage_witness :
    decodeBytes [] [15, 1] = some w1Glyph.data :=
  encode_decode_coverage [] w1Glyph [15, 1] (by decide)

/-- Splitting a sum over a dictionary into its RLE part and its REF part. -/
theorem sum_map_filter_partition (l : List DictEntry) (f : DictEntry → Nat) :
    ((l.filter (fun e => e.isRLE)).map f).sum
      + ((l.filter (fun e => !e.isRLE)).map f).sum = (l.map f).sum := by
  induction l with
  | nil => rfl
  | cons e l ih =>
    by_cases h : e.isRLE = true <;>
      simp [List.filter_cons, h, ih] <;>
      omega

/-- Claim C6: the size estimator is deterministic — equal data files give
equal byte counts — and it returns exactly the total encoded byte cost of
section 4.4: dictionary entry bytes plus one length byte each, glyph stream
bytes plus one length word each, plus the fixed header overhead. -/
theorem encoded_size_deterministic_exact :
    (∀ f g : DataFile, f = g → get_encoded_size f = get_encoded_size g)
    ∧ ∀ f : DataFile, get_encoded_size f = encoded_size_spec f := by
  refine ⟨fun f g h => by rw [h], ?_⟩
  intro f
  unfold get_encoded_size encoded_size_spec encode_font
  cases h : encodeGlyphsAll f.dictionary f.glyphs with
  | none => rfl
  | some gs =>
    have hpart := sum_map_filter_partition f.dictionary (fun e => e.bytes.length + 1)
    simp only [List.map_append, List.sum_append, List.map_map, Function.comp_def] at *
    omega

/-- Witness for C6: the determinism clause applied to the sample file. -/
theorem encoded_size_deterministic_exact_witness :
    get_encoded_size w1File = get_encoded_size w1File :=
  encoded_size_deterministic_exact.1 w1File w1File rfl

/-- Claim C3: one optimize call never increases the total encoded size;
the size is unchanged exactly when no proposal was accepted, and in that
case the data file itself is unchanged. -/
theorem optimize_size_monotone (mutate : DataFile → DataFile) (f : DataFile) :
    get_encoded_size (optimize mutate f) ≤ get_encoded_size f
    ∧ (get_encoded_size (optimize mutate f) = get_encoded_size f
        ↔ ¬ proposalAccepted mutate f)
    ∧ (¬ proposalAccepted mutate f → optimize mutate f = f) := by
  unfold optimize proposalAccepted
  by_cases h : get_encoded_size (mutate f) < get_encoded_size f
  · rw [if_pos h]
    refine ⟨Nat.le_of_lt h, ?_, fun hn => absurd h hn⟩
    constructor
    · intro he; omega
    · intro hn; exact absurd h hn
  · rw [if_neg h]
    exact ⟨Nat.le_refl _, ⟨fun _ => h, fun _ => rfl⟩, fun _ => rfl⟩

/-- Witness for C3: the monotonicity clause at the identity proposal on
the sample file. -/
theorem optimize_size_monotone_witness :
    get_encoded_size (optimize id w1File) ≤ get_encoded_size w1File :=
  (optimize_size_monotone id w1File).1

/-- Running the cmd_optimize loop with always-succeeding saves for the k
remaining iterations: every iteration optimizes once and then writes the
optimized state to disk, so the writes are the successive iterates. -/
theorem optLoopAux_run {S : Type} (step : S → S) (n : Int) (hn : 0 < n) :
    ∀ (k : Nat) (fuel : Nat) (i : Int) (f d : S), i + k = n → k ≤ fuel →
      optLoopAux step (fun _ => true) n fuel i f d
        = some ⟨step^[k] f, if k = 0 then d else step^[k] f,
                (List.range k).map (fun j => step^[j + 1] f), 0⟩ := by
  intro k
  induction k with
  | zero =>
    intro fuel i f d hi hf
    have hcond : loopCond n i = false := by
      simp only [loopCond, Bool.or_eq_false_iff, beq_eq_false_iff_ne, ne_eq,
        decide_eq_false_iff_not]
      omega
    cases fuel with
    | zero => simp [optLoopAux, hcond]
    | succ fuel => simp [optLoopAux, hcond]
  | succ k ih =>
    intro fuel i f d hi hf
    have hcond : loopCond n i = true := by
      simp only [loopCond, Bool.or_eq_true, beq_iff_eq, decide_eq_true_eq]
      omega
    cases fuel with
    | zero => omega
    | succ fuel =>
      simp only [optLoopAux, hcond, if_true,
        ih fuel (i + 1) (step f) (step f) (by omega) (by omega)]
      refine congrArg some ?_
      simp only [LoopOut.mk.injEq]
      refine ⟨?_, ?_, ?_, trivial⟩
      · simp [Function.iterate_succ_apply]
      · cases k with
        | zero => simp
        | succ k =>
          rw [if_neg (Nat.succ_ne_zero k), if_neg (Nat.succ_ne_zero (k + 1))]
          simp [Function.iterate_succ_apply]
      · rw [List.range_succ_eq_map, List.map_cons, List.map_map]
        have hfun : ((fun j => step^[j + 1] f) ∘ Nat.succ)
            = fun j => step^[j + 1] (step f) := by
          funext j
          simp [Function.comp_def, Function.iterate_succ_apply]
        rw [hfun]
        simp [Function.iterate_succ_apply]

/-- Claim C5: in the cmd_optimize loop every committed iteration is exactly
one optimize call followed by one save of the optimized data file before
the next iteration begins; the k-th disk write is the k-fold optimized
state, so after every committed iteration the on-disk file reflects the
committed state and interruption loses at most the in-flight iteration. -/
theorem optimize_loop_save_each_iteration (mutate : DataFile → DataFile)
    (f d : DataFile) (n : Nat) (hn : 0 < n) :
    optLoopAux (optimize mutate) (fun _ => true) (n : Int) n 0 f d
      = some ⟨(optimize mutate)^[n] f, (optimize mutate)^[n] f,
              (List.range n).map (fun j => (optimize mutate)^[j + 1] f), 0⟩ := by
  have h := optLoopAux_run (optimize mutate) (n : Int) (by exact_mod_cast hn)
      n n 0 f d (by omega) (Nat.le_refl n)
  rw [h, if_neg (by omega)]

/-- Witness for C5: one iteration of the loop on the sample file with the
identity proposal. -/
theorem optimize_loop_save_each_iteration_witness :
    optLoopAux (optimize id) (fun _ => true) ((1 : Nat) : Int) 1 0 w1File w1File
      = some ⟨(optimize id)^[1] w1File, (optimize id)^[1] w1File,
              (List.range 1).map (fun j => (optimize id)^[j + 1] w1File), 0⟩ :=
  optimize_loop_save_each_iteration id w1File w1File 1 (by decide)

/-- With limit 0 the loop condition is always true, so the loop consumes
any amount of fuel without terminating. -/
theorem optLoopAux_zero {S : Type} (step : S → S) :
    ∀ (fuel : Nat) (i : Int) (f d : S),
      optLoopAux step (fun _ => true) 0 fuel i f d = none := by
  intro fuel
  induction fuel with
  | zero => intro i f d; simp [optLoopAux, loopCond]
  | succ fuel ih => intro i f d; simp [optLoopAux, loopCond, ih (i + 1)]

/-- Claim C9: the cmd_optimize loop condition is !limit || i < limit with
the limit defaulting to 100: a positive limit n runs exactly n iterations
and returns status 0 when all saves succeed; limit 0 makes the condition
always true so the loop never terminates (no fuel suffices); a negative
limit runs zero iterations and returns status 0 immediately. -/
theorem optimize_loop_iteration_counts (step : DataFile → DataFile) (f d : DataFile) :
    limitOf none = 100
    ∧ (∀ n : Int, 0 < n → ∀ fuel : Nat, n.toNat ≤ fuel →
        ∃ r : LoopOut DataFile,
          optLoopAux step (fun _ => true) n fuel 0 f d = some r
            ∧ r.writes.length = n.toNat ∧ r.status = 0)
    ∧ (∀ fuel : Nat, ∀ i : Int,
        optLoopAux step (fun _ => true) 0 fuel i f d = none)
    ∧ (∀ n : Int, n < 0 → ∀ fuel : Nat,
        optLoopAux step (fun _ => true) n fuel 0 f d = some ⟨f, d, [], 0⟩) := by
  refine ⟨rfl, ?_, ?_, ?_⟩
  · intro n hn fuel hfuel
    refine ⟨_, optLoopAux_run step n hn n.toNat fuel 0 f d (by omega) hfuel, ?_, rfl⟩
    simp
  · intro fuel i
    exact optLoopAux_zero step fuel i f d
  · intro n hn fuel
    have hcond : loopCond n 0 = false := by
      simp only [loopCond, Bool.or_eq_false_iff, beq_eq_false_iff_ne, ne_eq,
        decide_eq_false_iff_not]
      omega
    cases fuel with
    | zero => simp [optLoopAux, hcond]
    | succ fuel => simp [optLoopAux, hcond]

/-- Witness for C9: with limit 1 the loop on the sample file performs one
iteration and returns status 0. -/
theorem optimize_loop_iteration_counts_witness :
    ∃ r : LoopOut DataFile,
      optLoopAux id (fun _ => true) 1 1 0 w1File w1File = some r
        ∧ r.writes.length = (1 : Int).toNat ∧ r.status = 0 :=
  (optimize_loop_iteration_counts id w1File w1File).2.1 1 (by decide) 1 (by decide)

/-- A labelling loop of cmd_show_encoded prints consecutive indices. -/
theorem labelFrom_map_index (tag : LineTag) :
    ∀ (bs : List (List Nat)) (base : Nat),
      (labelFrom tag base bs).map (fun l => l.index) = List.range' base bs.length := by
  intro bs
  induction bs with
  | nil => intro base; rfl
  | cons b bs ih =>
    intro base
    simp [labelFrom, List.range'_succ, ih]

/-- A labelling loop of cmd_show_encoded prints the byte strings as given. -/
theorem labelFrom_map_bytes (tag : LineTag) :
    ∀ (bs : List (List Nat)) (base : Nat),
      (labelFrom tag base bs).map (fun l => l.bytes) = bs := by
  intro bs
  induction bs with
  | nil => intro base; rfl
  | cons b bs ih =>
    intro base
    simp [labelFrom, ih]

/-- A labelling loop of cmd_show_encoded prints one fixed tag. -/
theorem labelFrom_map_tag (tag : LineTag) :
    ∀ (bs : List (List Nat)) (base : Nat),
      (labelFrom tag base bs).map (fun l => l.tag)
        = List.replicate bs.length tag := by
  intro bs
  induction bs with
  | nil => intro base; rfl
  | cons b bs ih =>
    intro base
    simp [labelFrom, List.replicate_succ, ih]

/-- Claim C7: cmd_show_encoded labels dictionary entries with consecutive
indices starting at DICT_START (24), all RLE entries before all REF entries
with the counter continuing across the two groups, followed by the glyph
streams labelled from 0 in glyph-list order, printing the byte strings as
given. -/
theorem show_encoded_labels (e : EncodedFont) :
    (showEncodedLines e).map (fun l => l.index)
      = List.range' DICT_START (e.rle_dictionary.length + e.ref_dictionary.length)
          ++ List.range e.glyphs.length
    ∧ (showEncodedLines e).map (fun l => l.tag)
      = List.replicate e.rle_dictionary.length LineTag.dictRLE
          ++ List.replicate e.ref_dictionary.length LineTag.dictRef
          ++ List.replicate e.glyphs.length LineTag.glyphLine
    ∧ (showEncodedLines e).map (fun l => l.bytes)
      = e.rle_dictionary ++ e.ref_dictionary ++ e.glyphs := by
  refine ⟨?_, ?_, ?_⟩
  · have hAB := List.range'_append DICT_START e.rle_dictionary.length
      e.ref_dictionary.length 1
    simp only [one_mul] at hAB
    simp only [showEncodedLines, List.map_append, labelFrom_map_index,
      List.range_eq_range', ← List.append_assoc, hAB]
    congr 2
    omega
  · simp only [showEncodedLines, List.map_append, labelFrom_map_tag]
  · simp only [showEncodedLines, List.map_append, labelFrom_map_bytes]

/-- Claim C8: the Bytes-per-glyph figure of cmd_size divides by the glyph
count with no guard: for at least one glyph the guarded division is
defined, and a data file with zero glyphs — reachable through cmd_filter
when no character code survives — makes the guarded embedding's
division-error branch fire. -/
theorem size_division_guard :
    (∀ f : DataFile, f.glyphs ≠ [] → (bytesPerGlyph f).isSome = true)
    ∧ (cmdFilterCore w1Allowed w2File).glyphs = []
    ∧ bytesPerGlyph (cmdFilterCore w1Allowed w2File) = none := by
  refine ⟨?_, by decide, by decide⟩
  intro f h
  unfold bytesPerGlyph
  rw [if_neg (by simpa [List.length_eq_zero] using h)]
  rfl

/-- Witness for C8: the guarded division is defined on the sample file,
which has glyphs. -/
theorem size_division_guard_witness : (bytesPerGlyph w1File).isSome = true :=
  size_division_guard.1 w1File (by decide)

/-- Claim C10: cmd_filter parses each character-set argument with base 0
(decimal, hex 0x and octal all accepted); an argument without a dash
inserts one code; an argument a-b inserts every integer from a through b
inclusive, none when a exceeds b; and an argument whose first character is
a dash gives std::stoi an empty substring before the dash, so parsing
fails (the uncaught std::invalid_argument) and no status is returned. -/
theorem filter_arg_parsing :
    (processArg ['0', 'x', '4', '1'] = some [65]
      ∧ processArg ['6', '5'] = some [65]
      ∧ processArg ['0', '1', '0', '1'] = some [65])
    ∧ (∀ a b c : Int, c ∈ rangeIncl a b ↔ a ≤ c ∧ c ≤ b)
    ∧ processArg ['1', '0', '-', '1', '2'] = some [10, 11, 12]
    ∧ processArg ['1', '2', '-', '1', '0'] = some []
    ∧ (∀ s : List Char, processArg ('-' :: s) = none) := by
  refine ⟨by decide, ?_, by decide, by decide, ?_⟩
  · intro a b c
    unfold rangeIncl
    constructor
    · intro h
      rcases List.mem_map.mp h with ⟨k, hk, rfl⟩
      rw [List.mem_range] at hk
      omega
    · intro h
      refine List.mem_map.mpr ⟨(c - a).toNat, ?_, by omega⟩
      rw [List.mem_range]
      omega
  · intro s
    have h1 : stoi0 ([] : List Char) = none := rfl
    cases h2 : stoi0 s <;>
      simp [processArg, findDash, h1, h2]

/-- Witness for C10: a lone negative number as a character-set argument
fails to parse. -/
theorem filter_arg_parsing_witness : processArg ('-' :: ['5']) = none :=
  filter_arg_parsing.2.2.2.2 ['5']

end Mcufont
